import Mathlib

/-!
Verification of the hatetracker TextRank batch-orchestration pipeline.

A shallow embedding of `src/hatetracker/textrank.py` (batching, the batched
file-processing pipeline, and the `text_rank` dispatcher / result writer),
together with theorems settling the specification claims about it.

The phrase extractor itself (SpaCy + pytextrank) is an external collaborator;
it is modelled as an explicit function `extract : String → List Phrase` giving,
for each document text, the ordered phrase sequence `doc._.phrases` that the
code iterates over.  The filesystem is modelled explicitly: the input tree as
an inductive `Entry`, the output store as an association list `FS`.
-/

namespace HateTracker

/-- One phrase record, as built at `textrank.py:38`:
`{"text": phrase.text, "rank": phrase.rank, "count": phrase.count}`.
`rank` is an opaque score (the code never computes with it, only copies it);
we carry it as a rational. -/
structure Phrase where
  text : String
  rank : Rat
  count : Nat
deriving DecidableEq, Repr

/-- The `PhraseList` alias from `textrank.py:15`. -/
abbrev PhraseList := List Phrase

/-! ## Python semantics helpers: `pathlib` suffix and `range` -/

/-- Index of the last `'.'` in a list of characters, if any
(Python `str.rfind('.')` restricted to a found result). -/
def rfindDot (cs : List Char) : Option Nat :=
  ((List.range cs.length).filter fun i => cs.getD i ' ' == '.').getLast?

/-- Python `pathlib.PurePath.suffix` of a file *name*: the part of the name from its
last dot on, unless that dot is the first or the last character, in which case
the suffix is empty. -/
def pySuffix (name : String) : String :=
  let cs := name.toList
  match rfindDot cs with
  | some i => if 0 < i ∧ i < cs.length - 1 then String.mk (cs.drop i) else ""
  | none => ""

/-- Python `pathlib.PurePath.with_suffix` on a file name: drop the current suffix
(possibly empty) and append the new one. -/
def pyWithSuffix (name : String) (suffix : String) : String :=
  name.dropRight (pySuffix name).length ++ suffix

/-- Number of elements of Python `range(start, stop, step)` for `step ≠ 0`
(CPython's length computation). -/
def pyRangeLen (start stop step : Int) : Nat :=
  if 0 < step then
    if start < stop then ((stop - start - 1) / step).toNat + 1 else 0
  else
    if stop < start then ((start - stop - 1) / (-step)).toNat + 1 else 0

/-- Python `range(start, stop, step)` as a list; `none` models the
`ValueError` CPython raises when `step = 0`. -/
def pyRange (start stop step : Int) : Option (List Int) :=
  if step = 0 then none
  else some ((List.range (pyRangeLen start stop step)).map fun k : Nat => start + step * (k : Int))

/-- Python list slice `l[i : j]` for `0 ≤ i` (the only use site,
`textrank.py:63`, has `i = k·B ≥ 0`). -/
def pySlice (l : List α) (i j : Int) : List α :=
  (l.drop i.toNat).take (j - i).toNat

/-! ## `batch_files` (`textrank.py:49-63`) -/

/-- The generator `batch_files(iterable, batch_size)`: the list of slices
`iterable[i : i + batch_size]` for `i in range(0, len(iterable), batch_size)`.
`none` models the `ValueError` raised by `range` when `batch_size = 0`
(surfaced on the first pull of the generator, before any slice is taken). -/
def batch_files (iterable : List α) (batch_size : Int) : Option (List (List α)) :=
  (pyRange 0 iterable.length batch_size).map fun idxs =>
    idxs.map fun i => pySlice iterable i (i + batch_size)

/-- Reference chunking used to reason about `batch_files`: split a list into
consecutive groups of `b` elements (last group possibly shorter). -/
def chunks (b : Nat) : List α → List (List α)
  | [] => []
  | x :: xs => (x :: xs.take (b - 1)) :: chunks b (xs.drop (b - 1))
termination_by l => l.length
decreasing_by
  simp only [List.length_drop, List.length_cons]
  omega

/-! ## `get_phrases` (`textrank.py:18-46`) -/

/-- The inner loop of `get_phrases` for one document: append each phrase
record in order, and `break` as soon as `limit` is set and
`len(curr_phrases) >= limit` — the check happens *after* the append. -/
def collectPhrases (limit : Option Int) : List Phrase → PhraseList → PhraseList
  | [], acc => acc
  | p :: rest, acc =>
    let acc' := acc ++ [p]
    match limit with
    | some l => if l ≤ (acc'.length : Int) then acc' else collectPhrases limit rest acc'
    | none => collectPhrases limit rest acc'

/-- The function `get_phrases(text, limit)`: one truncated phrase list per document, where
`extract t` stands for the `doc._.phrases` sequence the external extractor
produces for document text `t`. -/
def get_phrases (extract : String → List Phrase) (texts : List String)
    (limit : Option Int) : List PhraseList :=
  texts.map fun t => collectPhrases limit (extract t) []

/-! ## Input filesystem tree -/

/-- A directory entry of the input tree: a regular file with its text content,
or a directory with its children in directory-listing order. -/
inductive Entry where
  | file (name : String) (content : String)
  | dir (name : String) (children : List Entry)

/-- The final path component's name. -/
def Entry.name : Entry → String
  | .file n _ => n
  | .dir n _ => n

/-- Python `Path.is_file()`. -/
def Entry.isFile : Entry → Bool
  | .file _ _ => true
  | .dir _ _ => false

/-- Python `Path.is_dir()`. -/
def Entry.isDir : Entry → Bool
  | .file _ _ => false
  | .dir _ _ => true

/-- Text content of a regular file (irrelevant default for directories,
which can never be read successfully). -/
def Entry.content : Entry → String
  | .file _ c => c
  | .dir _ _ => ""

/-- Fatal run errors. `valueError` is the `ValueError` raised by
`range(0, n, 0)`; `isADirectory` is the `IsADirectoryError` raised by
`open(file)` when `file` is a directory. -/
inductive Err where
  | valueError
  | isADirectory (name : String)
deriving DecidableEq, Repr

/-! ## `batched_file_process_iter` (`textrank.py:66-95`) -/

/-- The batch read loop (`textrank.py:89-92`): open and read every file of the
batch in order; the first entry that is not a regular file aborts with a fatal
error.  Returns the texts actually read (the file I/O performed) and the
error, if any. -/
def readBatch : List Entry → List String × Option Err
  | [] => ([], none)
  | e :: rest =>
    match e with
    | .file _ c =>
      let (cs, err) := readBatch rest
      (c :: cs, err)
    | .dir n _ => ([], some (.isADirectory n))

/-- Python `batch_size = len(file_paths) if batch_size is None` (`textrank.py:85-86`). -/
def effectiveBatchSize (file_paths : List Entry) (batch_size : Option Int) : Int :=
  match batch_size with
  | some b => b
  | none => (file_paths.length : Int)

/-- The per-batch loop of `batched_file_process_iter`: for each batch, read all
its files, extract phrases for the whole batch, and yield the per-file phrase
lists in order.  Result: (phrase lists yielded, texts read, error terminating
the generator early, if any). -/
def pipelineGo (extract : String → List Phrase) (limit : Option Int) :
    List (List Entry) → List PhraseList × List String × Option Err
  | [] => ([], [], none)
  | batch :: rest =>
    let (texts, err) := readBatch batch
    match err with
    | some e => ([], texts, some e)
    | none =>
      let ys := get_phrases extract texts limit
      let (ys2, rs2, e2) := pipelineGo extract limit rest
      (ys ++ ys2, texts ++ rs2, e2)

/-- The generator `batched_file_process_iter(file_paths, batch_size, limit)` as the sequence
of phrase lists the generator yields, the file reads it performs, and the
fatal error (if any) raised after the yielded ones when the consumer pulls
again.  A `ValueError` from `batch_files` surfaces before any file is read. -/
def batched_file_process_iter (extract : String → List Phrase)
    (file_paths : List Entry) (batch_size : Option Int) (limit : Option Int) :
    List PhraseList × List String × Option Err :=
  match batch_files file_paths (effectiveBatchSize file_paths batch_size) with
  | none => ([], [], some .valueError)
  | some batches => pipelineGo extract limit batches

/-! ## Output filesystem state and observable events -/

/-- An output path, as components. -/
abbrev OutPath := List String

/-- Rendering of a (relative) path as Python's `str(Path(...))`. -/
def renderPath (p : OutPath) : String := String.intercalate "/" p

/-- The output side of the filesystem: written record files and created
directories. -/
structure FS where
  files : List (OutPath × PhraseList)
  dirs : List OutPath
deriving DecidableEq, Repr

/-- Python `Path.is_file()` on the output store. -/
def FS.fileExists (fs : FS) (p : OutPath) : Bool :=
  fs.files.any fun q => q.1 == p

/-- The write `open(p, "w")` plus rows: create or fully replace the file at `p`.  The
store keeps the most recent write first; `lookup`/`fileExists` see the latest
content, which is the only observable behaviour of the disk. -/
def FS.setFile (fs : FS) (p : OutPath) (v : PhraseList) : FS :=
  { fs with files := (p, v) :: fs.files }

/-- Content of the file at `p`, if present. -/
def FS.lookup (fs : FS) (p : OutPath) : Option PhraseList :=
  (fs.files.find? fun q => q.1 == p).map Prod.snd

/-- Python `output_path.mkdir(exist_ok=True)` (`textrank.py:139`). -/
def mkdirFS (fs : FS) (p : OutPath) : FS :=
  if fs.dirs.contains p then fs else { fs with dirs := fs.dirs ++ [p] }

/-- Observable events of a run, in order: the two `warnings.warn` calls and
each file write. -/
inductive Event where
  | warnEmpty (msg : String)
  | warnOverwrite (msg : String)
  | write (path : OutPath) (phrases : PhraseList)
deriving DecidableEq, Repr

/-! ## The dispatcher loop body and the zip pairing (`textrank.py:142-171`) -/

/-- The resolved destination (`textrank.py:151-155`): the literal output path
in single-file mode, else `output_path / <file name with suffix .csv>`. -/
def currOutPath (write_to_output_path : Bool) (output_path : OutPath)
    (file_path : Entry) : OutPath :=
  if write_to_output_path then output_path
  else output_path ++ [pyWithSuffix file_path.name ".csv"]

/-- One iteration of the `text_rank` loop for a paired
`(file_path, phrases)`: resolve the output path, skip-and-warn on an empty
phrase list (`textrank.py:157-161`), warn if the destination already exists
(`textrank.py:163-166`), then write (`textrank.py:168-171`).  Both warning
messages interpolate `output_path` exactly as the f-strings in the source do. -/
def processPair (write_to_output_path : Bool) (output_path : OutPath) (fs : FS)
    (file_path : Entry) (phrases : PhraseList) : List Event × FS :=
  let curr_output_path : OutPath := currOutPath write_to_output_path output_path file_path
  if phrases.length = 0 then
    ([.warnEmpty ("No phrases found in file: " ++ renderPath output_path ++ ", skipping")],
      fs)
  else
    ((if fs.fileExists curr_output_path then
        [Event.warnOverwrite ("File " ++ renderPath output_path ++ " already exists, skipping")]
      else []) ++ [.write curr_output_path phrases],
      fs.setFile curr_output_path phrases)

/-- The `zip(input_files, batched_file_process_iter(...))` loop.  `zip` pulls
the file iterator first: when the files are exhausted it stops without pulling
the generator again, so a pending generator error (`perr`) only surfaces when
files remain after the yielded phrase lists run out. -/
def zipLoop (write_to_output_path : Bool) (output_path : OutPath) :
    List Entry → List PhraseList → Option Err → FS → List Event × FS × Option Err
  | [], _, _, fs => ([], fs, none)
  | _ :: _, [], perr, fs => ([], fs, perr)
  | f :: fr, p :: pr, perr, fs =>
    let (evs, fs1) := processPair write_to_output_path output_path fs f p
    let (evs2, fs2, e2) := zipLoop write_to_output_path output_path fr pr perr fs1
    (evs ++ evs2, fs2, e2)

/-! ## `text_rank` (`textrank.py:98-187`) -/

/-- Input selection in directory mode (`textrank.py:134-138`): the direct
children whose `pathlib` suffix equals `input_file_suffix` — with no check
that the child is a regular file. -/
def inputFilesOf (children : List Entry) (input_file_suffix : String) : List Entry :=
  children.filter fun c => pySuffix c.name == input_file_suffix

/-- The non-recursive part of `text_rank` in directory mode: select input
files, `mkdir` the output directory, run the batched pipeline, and drive the
paired loop. -/
def dispatchOwn (extract : String → List Phrase) (children : List Entry)
    (output_path : OutPath) (input_file_suffix : String) (phrase_limit : Option Int)
    (file_batch_size : Option Int) (fs : FS) : List Event × FS × Option Err :=
  let input_files := inputFilesOf children input_file_suffix
  let fs1 := mkdirFS fs output_path
  let (ys, _, perr) := batched_file_process_iter extract input_files file_batch_size phrase_limit
  zipLoop false output_path input_files ys perr fs1

mutual

/-- The dispatcher `text_rank(input_path, output_path, recursive, input_file_suffix,
phrase_limit, file_batch_size)` over input tree `input_path` and output store
`fs`.  Returns the events in order, the final output store, and the fatal
error (if any) that aborted the run. -/
def text_rank (extract : String → List Phrase) (input_path : Entry)
    (output_path : OutPath) (recursive : Bool) (input_file_suffix : String)
    (phrase_limit : Option Int) (file_batch_size : Option Int) (fs : FS) :
    List Event × FS × Option Err :=
  match input_path with
  | .file _ _ =>
    let (ys, _, perr) :=
      batched_file_process_iter extract [input_path] file_batch_size phrase_limit
    zipLoop true output_path [input_path] ys perr fs
  | .dir _ children =>
    let (evs, fs2, e) :=
      dispatchOwn extract children output_path input_file_suffix phrase_limit
        file_batch_size fs
    match e with
    | some er => (evs, fs2, some er)
    | none =>
      if recursive then
        let (evs2, fs3, e2) :=
          text_rank_subdirs extract children output_path input_file_suffix phrase_limit
            file_batch_size fs2
        (evs ++ evs2, fs3, e2)
      else (evs, fs2, none)

/-- The recursion loop of `text_rank` (`textrank.py:176-187`): for each child
in listing order, skip non-directories, and re-invoke `text_rank` on each
directory with the output rebased to `output_path/<name>`, `recursive=True`,
and the same suffix filter, limit and batch size.  A fatal error aborts the
remaining siblings. -/
def text_rank_subdirs (extract : String → List Phrase) (entries : List Entry)
    (output_path : OutPath) (input_file_suffix : String) (phrase_limit : Option Int)
    (file_batch_size : Option Int) (fs : FS) : List Event × FS × Option Err :=
  match entries with
  | [] => ([], fs, none)
  | c :: rest =>
    if c.isDir then
      let (evs, fs1, e) := text_rank extract c (output_path ++ [c.name]) true
        input_file_suffix phrase_limit file_batch_size fs
      match e with
      | some er => (evs, fs1, some er)
      | none =>
        let (evs2, fs2, e2) := text_rank_subdirs extract rest output_path
          input_file_suffix phrase_limit file_batch_size fs1
        (evs ++ evs2, fs2, e2)
    else
      text_rank_subdirs extract rest output_path input_file_suffix phrase_limit
        file_batch_size fs

end

/-! ## Batcher lemmas -/

theorem pyRangeLen_nat (n b : Nat) (hb : 0 < b) :
    pyRangeLen 0 n b = (n + b - 1) / b := by
  unfold pyRangeLen
  have hb' : (0 : Int) < (b : Int) := by exact_mod_cast hb
  rw [if_pos hb']
  by_cases hn : 0 < n
  · have hn' : (0 : Int) < (n : Int) := by exact_mod_cast hn
    rw [if_pos hn']
    have h1 : ((n : Int) - 0 - 1) = ((n - 1 : Nat) : Int) := by omega
    rw [h1, ← Int.natCast_div, Int.toNat_natCast]
    have h2 : n + b - 1 = (n - 1) + b := by omega
    rw [h2, Nat.add_div_right _ hb]
  · have hn0 : n = 0 := by omega
    subst hn0
    simp [Nat.div_eq_of_lt (by omega : b - 1 < b)]

theorem range_map_eq_chunks (b : Nat) (hb : 0 < b) :
    ∀ l : List α,
      (List.range ((l.length + b - 1) / b)).map (fun k => (l.drop (b * k)).take b) =
        chunks b l
  | [] => by simp [chunks, Nat.div_eq_of_lt (by omega : b - 1 < b)]
  | x :: xs => by
    obtain ⟨b', rfl⟩ : ∃ b', b = b' + 1 := ⟨b - 1, by omega⟩
    have ih := range_map_eq_chunks (b' + 1) hb (xs.drop (b' + 1 - 1))
    simp only [Nat.add_sub_cancel] at ih
    have hm : ((x :: xs).length + (b' + 1) - 1) / (b' + 1) = xs.length / (b' + 1) + 1 := by
      have h2 : (x :: xs).length + (b' + 1) - 1 = xs.length + (b' + 1) := by
        simp only [List.length_cons]; omega
      rw [h2, Nat.add_div_right _ hb]
    have hm' : ((xs.drop b').length + (b' + 1) - 1) / (b' + 1) =
        xs.length / (b' + 1) := by
      rcases le_or_lt b' xs.length with h | h
      · have hx : (xs.drop b').length + (b' + 1) - 1 = xs.length := by
          simp only [List.length_drop]; omega
        rw [hx]
      · have h0 : (xs.drop b').length = 0 := by
          simp only [List.length_drop]; omega
        rw [h0]
        rw [Nat.div_eq_of_lt (by omega : 0 + (b' + 1) - 1 < b' + 1),
          Nat.div_eq_of_lt (by omega : xs.length < b' + 1)]
    rw [hm, List.range_succ_eq_map, List.map_cons]
    rw [chunks]
    simp only [Nat.add_sub_cancel]
    rw [List.cons.injEq]
    refine ⟨rfl, ?_⟩
    · rw [List.map_map]
      have step :
          List.map ((fun k => ((x :: xs).drop ((b' + 1) * k)).take (b' + 1)) ∘ Nat.succ)
              (List.range (xs.length / (b' + 1))) =
            List.map (fun k => ((xs.drop b').drop ((b' + 1) * k)).take (b' + 1))
              (List.range (xs.length / (b' + 1))) := by
        apply List.map_congr_left
        intro k _
        simp only [Function.comp_apply, Nat.succ_eq_add_one]
        have h3 : (b' + 1) * (k + 1) = ((b' + 1) * k + b') + 1 := by ring
        have h4 : (x :: xs).drop ((b' + 1) * (k + 1)) =
            (xs.drop b').drop ((b' + 1) * k) := by
          rw [h3, List.drop_succ_cons, List.drop_drop]
          congr 1
          omega
        rw [h4]
      rw [step, ← hm']
      exact ih
termination_by l => l.length
decreasing_by simp [List.length_drop]; omega

theorem batch_files_eq_chunks (l : List α) (b : Nat) (hb : 0 < b) :
    batch_files l (b : Int) = some (chunks b l) := by
  unfold batch_files pyRange
  rw [if_neg (by omega : ¬ ((b : Int) = 0))]
  simp only [Option.map_some']
  congr 1
  rw [List.map_map, pyRangeLen_nat _ _ hb, ← range_map_eq_chunks b hb l]
  apply List.map_congr_left
  intro k _
  simp only [Function.comp_apply, pySlice]
  have h1 : (0 : Int) + (b : Int) * (k : Int) = ((b * k : Nat) : Int) := by push_cast; ring
  have h2 : ((b * k : Nat) : Int) + (b : Int) - ((b * k : Nat) : Int) = ((b : Nat) : Int) := by
    ring
  rw [h1, h2, Int.toNat_natCast, Int.toNat_natCast]

theorem batch_files_int_pos (l : List α) (b : Int) (hb : 0 < b) :
    batch_files l b = some (chunks b.toNat l) := by
  have h := batch_files_eq_chunks l b.toNat (by omega)
  rwa [Int.toNat_of_nonneg (by omega)] at h

theorem chunks_flatten (b : Nat) (hb : 0 < b) : ∀ l : List α, (chunks b l).flatten = l
  | [] => by simp [chunks]
  | x :: xs => by
    have ih := chunks_flatten b hb (xs.drop (b - 1))
    rw [chunks]
    simp only [List.flatten_cons, ih, List.cons_append, List.cons.injEq, true_and]
    exact List.take_append_drop _ _
termination_by l => l.length
decreasing_by simp [List.length_drop]; omega

theorem chunks_eq_nil_iff (b : Nat) (l : List α) : chunks b l = [] ↔ l = [] := by
  cases l <;> simp [chunks]

theorem chunks_dropLast_length (b : Nat) (hb : 0 < b) :
    ∀ l : List α, ∀ c ∈ (chunks b l).dropLast, c.length = b
  | [] => by simp [chunks]
  | x :: xs => by
    intro c hc
    have ih := chunks_dropLast_length b hb (xs.drop (b - 1))
    rw [chunks] at hc
    by_cases hrest : chunks b (xs.drop (b - 1)) = []
    · rw [hrest] at hc
      simp at hc
    · rw [List.dropLast_cons_of_ne_nil hrest] at hc
      rcases List.mem_cons.mp hc with h | h
      · subst h
        have hxs : b - 1 ≤ xs.length := by
          by_contra hlt
          apply hrest
          rw [chunks_eq_nil_iff, List.drop_eq_nil_iff]
          omega
        simp [List.length_take]
        omega
      · exact ih c h
termination_by l => l.length
decreasing_by simp [List.length_drop]; omega

/-! ## Pipeline lemmas -/

theorem readBatch_files (batch : List Entry) (h : ∀ e ∈ batch, e.isFile = true) :
    readBatch batch = (batch.map Entry.content, none) := by
  induction batch with
  | nil => simp [readBatch]
  | cons e rest ih =>
    cases e with
    | file n c =>
      have hr := ih fun x hx => h x (List.mem_cons_of_mem _ hx)
      simp [readBatch, hr, Entry.content]
    | dir n cs =>
      have hd := h (.dir n cs) (List.mem_cons_self _ _)
      simp [Entry.isFile] at hd

theorem pipelineGo_files (extract : String → List Phrase) (lim : Option Int)
    (batches : List (List Entry))
    (h : ∀ batch ∈ batches, ∀ e ∈ batch, e.isFile = true) :
    pipelineGo extract lim batches =
      ((batches.map fun batch =>
          batch.map fun e => collectPhrases lim (extract e.content) []).flatten,
       (batches.map fun batch => batch.map Entry.content).flatten, none) := by
  induction batches with
  | nil => simp [pipelineGo]
  | cons batch rest ih =>
    have hb := h batch (List.mem_cons_self _ _)
    have hr := ih fun x hx => h x (List.mem_cons_of_mem _ hx)
    simp only [pipelineGo, readBatch_files batch hb, hr]
    simp [get_phrases, List.map_map, Function.comp_def]

theorem pipeline_spec (extract : String → List Phrase) (files : List Entry)
    (bs lim : Option Int) (hf : ∀ e ∈ files, e.isFile = true)
    (hb : 0 < effectiveBatchSize files bs) :
    batched_file_process_iter extract files bs lim =
      (files.map fun e => collectPhrases lim (extract e.content) [],
       files.map Entry.content, none) := by
  unfold batched_file_process_iter
  have hBn : effectiveBatchSize files bs = (((effectiveBatchSize files bs).toNat : Nat) : Int) := by
    omega
  have hpos : 0 < (effectiveBatchSize files bs).toNat := by omega
  rw [hBn, batch_files_eq_chunks files _ hpos]
  have hmem : ∀ batch ∈ chunks (effectiveBatchSize files bs).toNat files,
      ∀ e ∈ batch, e.isFile = true := by
    intro batch hbm e he
    apply hf
    have hmj : e ∈ (chunks (effectiveBatchSize files bs).toNat files).flatten :=
      List.mem_flatten.mpr ⟨batch, hbm, he⟩
    rwa [chunks_flatten _ hpos] at hmj
  show pipelineGo extract lim (chunks (effectiveBatchSize files bs).toNat files) =
    (files.map fun e => collectPhrases lim (extract e.content) [],
     files.map Entry.content, none)
  rw [pipelineGo_files extract lim _ hmem]
  rw [← List.map_flatten, ← List.map_flatten, chunks_flatten _ hpos]

/-! ## Claim C5 -/

/-- Claim C5, confirmed: for every ordered sequence of items and every positive
batch size `B`, `batch_files` succeeds and produces exactly the consecutive
chunks of size `B`: concatenating the batches in order reconstructs the input
exactly, and every batch except possibly the last has length exactly `B`. -/
theorem C5_batcher_reconstructs {α : Type _} (items : List α) (B : Nat) (hB : 0 < B) :
    batch_files items (B : Int) = some (chunks B items) ∧
    (chunks B items).flatten = items ∧
    ∀ c ∈ (chunks B items).dropLast, c.length = B :=
  ⟨batch_files_eq_chunks items B hB, chunks_flatten B hB items,
    chunks_dropLast_length B hB items⟩

theorem C5_batcher_reconstructs_witness :
    0 < 2 ∧
    (batch_files [10, 20, 30] ((2 : Nat) : Int) = some (chunks 2 [10, 20, 30]) ∧
     (chunks 2 [10, 20, 30]).flatten = [10, 20, 30] ∧
     ∀ c ∈ (chunks 2 [10, 20, 30]).dropLast, c.length = 2) :=
  ⟨by decide, C5_batcher_reconstructs [10, 20, 30] 2 (by decide)⟩

/-! ## Claim C4 -/

/-- Claim C4, confirmed: for every ordered sequence of input files (all regular
files) and any valid batching configuration (positive effective batch size),
the batch pipeline yields exactly one phrase list per input file, in input
order — the `i`-th yielded phrase list is the (truncated) extraction of the
`i`-th file's content — and terminates without error. -/
theorem C4_pipeline_one_output_per_file (extract : String → List Phrase)
    (files : List Entry) (bs lim : Option Int)
    (hf : ∀ e ∈ files, e.isFile = true)
    (hb : 0 < effectiveBatchSize files bs) :
    (batched_file_process_iter extract files bs lim).1 =
      files.map (fun e => collectPhrases lim (extract e.content) []) ∧
    (batched_file_process_iter extract files bs lim).2.2 = none := by
  rw [pipeline_spec extract files bs lim hf hb]
  exact ⟨rfl, rfl⟩

theorem C4_pipeline_one_output_per_file_witness :
    (∀ e ∈ [Entry.file "a.txt" "x", Entry.file "b.txt" "y"], e.isFile = true) ∧
    0 < effectiveBatchSize [Entry.file "a.txt" "x", Entry.file "b.txt" "y"] (some 1) ∧
    ((batched_file_process_iter (fun s => [⟨s, 1, 1⟩])
        [Entry.file "a.txt" "x", Entry.file "b.txt" "y"] (some 1) none).1 =
      [Entry.file "a.txt" "x", Entry.file "b.txt" "y"].map
        (fun e => collectPhrases none ((fun s => [⟨s, 1, 1⟩]) e.content) []) ∧
     (batched_file_process_iter (fun s => [⟨s, 1, 1⟩])
        [Entry.file "a.txt" "x", Entry.file "b.txt" "y"] (some 1) none).2.2 = none) :=
  ⟨by decide, by decide,
    C4_pipeline_one_output_per_file _ _ _ _ (by decide) (by decide)⟩

/-! ## Claim C6 -/

/-- Claim C6, confirmed: for a fixed sequence of input files (all regular
files) and any two positive batch sizes, the batch pipeline produces identical
results — phrase lists, file reads and error status — regardless of the batch
size.  (The extractor is a fixed function, hence deterministic.) -/
theorem C6_batch_size_invariance (extract : String → List Phrase)
    (files : List Entry) (b1 b2 : Int) (lim : Option Int)
    (hf : ∀ e ∈ files, e.isFile = true)
    (h1 : 0 < b1) (h2 : 0 < b2) (_hne : b1 ≠ b2) :
    batched_file_process_iter extract files (some b1) lim =
      batched_file_process_iter extract files (some b2) lim := by
  rw [pipeline_spec extract files (some b1) lim hf (by simpa [effectiveBatchSize] using h1),
    pipeline_spec extract files (some b2) lim hf (by simpa [effectiveBatchSize] using h2)]

theorem C6_batch_size_invariance_witness :
    (∀ e ∈ [Entry.file "a.txt" "x", Entry.file "b.txt" "y", Entry.file "c.txt" "z"],
      e.isFile = true) ∧
    (0 : Int) < 1 ∧ (0 : Int) < 2 ∧ (1 : Int) ≠ 2 ∧
    batched_file_process_iter (fun s => [⟨s, 1, 1⟩])
        [Entry.file "a.txt" "x", Entry.file "b.txt" "y", Entry.file "c.txt" "z"]
        (some 1) none =
      batched_file_process_iter (fun s => [⟨s, 1, 1⟩])
        [Entry.file "a.txt" "x", Entry.file "b.txt" "y", Entry.file "c.txt" "z"]
        (some 2) none :=
  ⟨by decide, by decide, by decide, by decide,
    C6_batch_size_invariance _ _ _ _ _ (by decide) (by decide) (by decide) (by decide)⟩

/-! ## `get_phrases` truncation lemmas (claim C2) -/

theorem collectPhrases_none (doc : List Phrase) :
    ∀ acc, collectPhrases none doc acc = acc ++ doc := by
  induction doc with
  | nil => intro acc; simp [collectPhrases]
  | cons p rest ih => intro acc; simp [collectPhrases, ih]

theorem collectPhrases_some (L : Int) (doc : List Phrase) :
    ∀ acc, collectPhrases (some L) doc acc =
      acc ++ doc.take (max (L - (acc.length : Int)).toNat 1) := by
  induction doc with
  | nil => intro acc; simp [collectPhrases]
  | cons p rest ih =>
    intro acc
    by_cases hc : L ≤ (((acc ++ [p]).length : Nat) : Int)
    · simp only [collectPhrases]
      rw [if_pos hc]
      have ht : max (L - (acc.length : Int)).toNat 1 = 1 := by
        simp only [List.length_append, List.length_cons, List.length_nil] at hc
        omega
      rw [ht]
      simp
    · simp only [collectPhrases]
      rw [if_neg hc, ih (acc ++ [p])]
      have hL1 : (((acc ++ [p]).length : Nat) : Int) = (acc.length : Int) + 1 := by
        push_cast [List.length_append]
        simp
      rw [hL1] at hc ⊢
      have ht' : max (L - ((acc.length : Int) + 1)).toNat 1 =
          (L - (acc.length : Int)).toNat - 1 := by omega
      have ht : max (L - (acc.length : Int)).toNat 1 =
          ((L - (acc.length : Int)).toNat - 1) + 1 := by omega
      rw [ht', ht, List.take_succ_cons]
      simp

theorem get_phrases_none (extract : String → List Phrase) (texts : List String) :
    get_phrases extract texts none = texts.map extract := by
  simp [get_phrases, collectPhrases_none]

/-! ## Claim C2 (corrected) -/

/-- Claim C2, counterexample to the claim as stated: with `limit = 0`, a
document with one phrase yields a one-element phrase list, not the empty
length-`min(0, full)` prefix of the `limit = None` result: the limit check
runs only *after* the first append. -/
theorem C2_truncation_counterexample :
    ¬ (get_phrases (fun _ => [⟨"alpha", 1, 1⟩]) ["doc"] (some 0) =
        (get_phrases (fun _ => [⟨"alpha", 1, 1⟩]) ["doc"] none).map
          (fun ph => ph.take 0)) := by
  decide

/-- Claim C2, amended: for every document and every non-negative `k`,
extraction with `limit = k` returns the length-`min(max(k,1), full length)`
initial segment of the `limit = None` phrase list: for `k ≥ 1` this is the
claimed `min(k, full length)` segment, but `limit = 0` behaves like
`limit = 1` and yields one phrase (when available) rather than none. -/
theorem C2_truncation_amended (extract : String → List Phrase)
    (texts : List String) (k : Nat) :
    get_phrases extract texts (some (k : Int)) =
      (get_phrases extract texts none).map (fun ph => ph.take (max k 1)) := by
  simp only [get_phrases, List.map_map]
  apply List.map_congr_left
  intro t _
  simp only [Function.comp_apply]
  rw [collectPhrases_some, collectPhrases_none]
  simp only [List.nil_append, List.length_nil]
  congr 1

/-! ## Claim C1 (corrected) -/

theorem pipeline_zero_batch (extract : String → List Phrase) (files : List Entry)
    (lim : Option Int) :
    batched_file_process_iter extract files (some 0) lim = ([], [], some .valueError) := by
  simp [batched_file_process_iter, effectiveBatchSize, batch_files, pyRange]

theorem pipeline_negative_batch (extract : String → List Phrase) (files : List Entry)
    (lim : Option Int) (b : Int) (hb : b < 0) :
    batched_file_process_iter extract files (some b) lim = ([], [], none) := by
  have h0 : ¬ (b = 0) := by omega
  have h1 : ¬ (0 < b) := by omega
  have h2 : ¬ ((files.length : Int) < 0) := by omega
  simp [batched_file_process_iter, effectiveBatchSize, batch_files, pyRange, pyRangeLen,
    h0, h1, h2, pipelineGo]

theorem zipLoop_no_yields (wto : Bool) (out : OutPath) (files : List Entry) (fs : FS) :
    zipLoop wto out files [] none fs = ([], fs, none) := by
  cases files <;> simp [zipLoop]

/-- Claim C1, counterexample to the claim as stated: with batch size `-1` and a
non-empty input directory, the run raises no error at all and silently
completes having processed no file: `range(0, n, -1)` is empty, so the batcher
yields no batches, the pipeline yields nothing, and the pairing loop just
stops. -/
theorem C1_negative_batch_counterexample :
    text_rank (fun s => [⟨s, 1, 1⟩]) (.dir "d" [.file "a.txt" "x"]) ["out"] false ".txt"
        none (some (-1)) ⟨[], []⟩ = ([], ⟨[], [["out"]]⟩, none) := by
  decide

/-- Claim C1, amended: the batching operation fails only for batch size
*exactly zero* — then pulling the pipeline raises the `range` `ValueError`
before any file is read (the performed-reads component is empty).  For every
*negative* batch size no failure is raised: the batcher yields no batches, no
file is read, and the run silently completes without processing any files. -/
theorem C1_batch_size_amended :
    (∀ (extract : String → List Phrase) (files : List Entry) (lim : Option Int),
      batched_file_process_iter extract files (some 0) lim = ([], [], some .valueError)) ∧
    (∀ (extract : String → List Phrase) (files : List Entry) (lim : Option Int) (b : Int),
      b < 0 → batched_file_process_iter extract files (some b) lim = ([], [], none)) ∧
    (∀ (extract : String → List Phrase) (nm : String) (children : List Entry)
        (out : OutPath) (sfx : String) (lim : Option Int) (b : Int) (fs : FS),
      b < 0 →
        text_rank extract (.dir nm children) out false sfx lim (some b) fs =
          ([], mkdirFS fs out, none)) := by
  refine ⟨pipeline_zero_batch, fun a f l b hb => pipeline_negative_batch a f l b hb, ?_⟩
  intro extract nm children out sfx lim b fs hb
  simp only [text_rank, dispatchOwn, pipeline_negative_batch _ _ _ _ hb,
    zipLoop_no_yields]
  simp

theorem C1_batch_size_amended_witness :
    ((-2 : Int) < 0 ∧
      batched_file_process_iter (fun s => [⟨s, 1, 1⟩]) [.file "a.txt" "x"] (some (-2)) none =
        ([], [], none)) ∧
    ((-2 : Int) < 0 ∧
      text_rank (fun s => [⟨s, 1, 1⟩]) (.dir "d" [.file "a.txt" "x"]) ["out"] false ".txt"
          none (some (-2)) ⟨[], []⟩ = ([], mkdirFS ⟨[], []⟩ ["out"], none)) :=
  ⟨⟨by decide, C1_batch_size_amended.2.1 _ _ _ _ (by decide)⟩,
   ⟨by decide, C1_batch_size_amended.2.2 _ _ _ _ _ _ _ _ (by decide)⟩⟩

/-! ## Claim C3 (code bug) -/

/-- Claim C3, code bug, evaluating the code at the failing input: in a directory run over
`docs/{a.txt, b.txt}` with output directory `out`, where `a.txt` extracts no
phrases, the writer does skip `a.txt` (no artifact is created or altered for
it), surfaces exactly one empty-result warning, and continues with `b.txt` —
but the warning message is `"No phrases found in file: out, skipping"`: the
f-string at `textrank.py:159` interpolates the run-level `output_path`, so the
message does not identify the offending file (the name `a.txt` does not occur
in it). -/
theorem C3_empty_warning_misidentifies_file :
    (text_rank (fun s => if s = "" then [] else [⟨s, 1, 1⟩])
        (.dir "docs" [.file "a.txt" "", .file "b.txt" "gamma"]) ["out"] false ".txt"
        none none ⟨[], []⟩ =
      ([.warnEmpty "No phrases found in file: out, skipping",
        .write ["out", "b.csv"] [⟨"gamma", 1, 1⟩]],
       ⟨[(["out", "b.csv"], [⟨"gamma", 1, 1⟩])], [["out"]]⟩, none)) ∧
    ¬ List.IsInfix "a.txt".toList "No phrases found in file: out, skipping".toList := by
  exact ⟨by decide, by decide⟩

/-! ## Claim C10 -/

/-- Claim C10, confirmed: a directory run with no suffix-matching children and
an unspecified batch size completes the non-recursive part without error even
though the default batch size is `len([]) = 0`: the output directory is still
created, no file is read or written at this level, and the run proceeds to
recursion into subdirectories exactly when requested.  (The pairing `zip`
exhausts the empty file list without pulling the pipeline generator, so the
pending `range` `ValueError` never surfaces.) -/
theorem C10_empty_dir_default_batch (extract : String → List Phrase) (nm : String)
    (children : List Entry) (out : OutPath) (recursive : Bool) (sfx : String)
    (lim : Option Int) (fs : FS)
    (h : inputFilesOf children sfx = []) :
    text_rank extract (.dir nm children) out recursive sfx lim none fs =
      (if recursive then
        text_rank_subdirs extract children out sfx lim none (mkdirFS fs out)
      else ([], mkdirFS fs out, none)) := by
  have hpipe : batched_file_process_iter extract [] none lim = ([], [], some .valueError) := by
    simp [batched_file_process_iter, effectiveBatchSize, batch_files, pyRange]
  simp only [text_rank, dispatchOwn, h, hpipe, zipLoop]
  cases recursive <;> simp

theorem C10_empty_dir_default_batch_witness :
    inputFilesOf [Entry.dir "sub" [Entry.file "x.txt" "hello"]] ".txt" = [] ∧
    text_rank (fun s => [⟨s, 1, 1⟩])
        (.dir "root" [Entry.dir "sub" [Entry.file "x.txt" "hello"]])
        ["out"] true ".txt" none none ⟨[], []⟩ =
      (if true then
        text_rank_subdirs (fun s => [⟨s, 1, 1⟩]) [Entry.dir "sub" [Entry.file "x.txt" "hello"]]
          ["out"] ".txt" none none (mkdirFS ⟨[], []⟩ ["out"])
      else ([], mkdirFS ⟨[], []⟩ ["out"], none)) :=
  ⟨rfl,
    C10_empty_dir_default_batch (fun s => [⟨s, 1, 1⟩]) "root"
      [Entry.dir "sub" [Entry.file "x.txt" "hello"]] ["out"] true ".txt" none ⟨[], []⟩
      rfl⟩

/-! ## Claim C8 -/

/-- Claim C8, confirmed: the dispatcher's recursion structure.
(1) For a directory target with recursion requested, after the directory's own
matched files are fully processed without fatal error, the subdirectory walk
runs on the same children list with the same suffix filter, limit and batch
size, and its events follow all own-file events.
(2) A directory child is re-dispatched with the output rebased to
`output_path/<name>`, recursion on, and the same suffix/limit/batch size,
before the remaining siblings (directory-listing order).
(3) Non-directory children are skipped by the walk.
(4) For a single-file target the recursion flag is irrelevant: no recursion
ever happens.
(5) With the recursion flag off, a directory run is exactly the
non-recursive processing of its own files. -/
theorem C8_recursion_structure :
    (∀ (extract : String → List Phrase) (nm : String) (cs : List Entry) (out : OutPath)
        (sfx : String) (lim bs : Option Int) (fs : FS) (evs : List Event) (fs2 : FS),
      dispatchOwn extract cs out sfx lim bs fs = (evs, fs2, none) →
      text_rank extract (.dir nm cs) out true sfx lim bs fs =
        (evs ++ (text_rank_subdirs extract cs out sfx lim bs fs2).1,
         (text_rank_subdirs extract cs out sfx lim bs fs2).2.1,
         (text_rank_subdirs extract cs out sfx lim bs fs2).2.2)) ∧
    (∀ (extract : String → List Phrase) (c : Entry) (rest : List Entry) (out : OutPath)
        (sfx : String) (lim bs : Option Int) (fs : FS) (evs : List Event) (fs1 : FS),
      c.isDir = true →
      text_rank extract c (out ++ [c.name]) true sfx lim bs fs = (evs, fs1, none) →
      text_rank_subdirs extract (c :: rest) out sfx lim bs fs =
        (evs ++ (text_rank_subdirs extract rest out sfx lim bs fs1).1,
         (text_rank_subdirs extract rest out sfx lim bs fs1).2.1,
         (text_rank_subdirs extract rest out sfx lim bs fs1).2.2)) ∧
    (∀ (extract : String → List Phrase) (c : Entry) (rest : List Entry) (out : OutPath)
        (sfx : String) (lim bs : Option Int) (fs : FS),
      c.isDir = false →
      text_rank_subdirs extract (c :: rest) out sfx lim bs fs =
        text_rank_subdirs extract rest out sfx lim bs fs) ∧
    (∀ (extract : String → List Phrase) (n ct : String) (out : OutPath) (r1 r2 : Bool)
        (sfx : String) (lim bs : Option Int) (fs : FS),
      text_rank extract (.file n ct) out r1 sfx lim bs fs =
        text_rank extract (.file n ct) out r2 sfx lim bs fs) ∧
    (∀ (extract : String → List Phrase) (nm : String) (cs : List Entry) (out : OutPath)
        (sfx : String) (lim bs : Option Int) (fs : FS),
      text_rank extract (.dir nm cs) out false sfx lim bs fs =
        dispatchOwn extract cs out sfx lim bs fs) := by
  refine ⟨?_, ?_, ?_, ?_, ?_⟩
  · intro extract nm cs out sfx lim bs fs evs fs2 h
    simp [text_rank, h]
  · intro extract c rest out sfx lim bs fs evs fs1 hdir h
    simp [text_rank_subdirs, hdir, h]
  · intro extract c rest out sfx lim bs fs hdir
    simp [text_rank_subdirs, hdir]
  · intro extract n ct out r1 r2 sfx lim bs fs
    rfl
  · intro extract nm cs out sfx lim bs fs
    rcases h : dispatchOwn extract cs out sfx lim bs fs with ⟨evs, fs2, e⟩
    cases e <;> simp [text_rank, h]

theorem C8_recursion_structure_witness :
    (dispatchOwn (fun s => [⟨s, 1, 1⟩]) [Entry.file "a.txt" "x"] ["out"] ".txt" none none
        ⟨[], []⟩ =
      ([.write ["out", "a.csv"] [⟨"x", 1, 1⟩]],
       ⟨[(["out", "a.csv"], [⟨"x", 1, 1⟩])], [["out"]]⟩, none) ∧
     text_rank (fun s => [⟨s, 1, 1⟩]) (.dir "d" [Entry.file "a.txt" "x"]) ["out"] true ".txt"
        none none ⟨[], []⟩ =
      ([.write ["out", "a.csv"] [⟨"x", 1, 1⟩]] ++
        (text_rank_subdirs (fun s => [⟨s, 1, 1⟩]) [Entry.file "a.txt" "x"] ["out"] ".txt"
          none none ⟨[(["out", "a.csv"], [⟨"x", 1, 1⟩])], [["out"]]⟩).1,
       (text_rank_subdirs (fun s => [⟨s, 1, 1⟩]) [Entry.file "a.txt" "x"] ["out"] ".txt"
          none none ⟨[(["out", "a.csv"], [⟨"x", 1, 1⟩])], [["out"]]⟩).2.1,
       (text_rank_subdirs (fun s => [⟨s, 1, 1⟩]) [Entry.file "a.txt" "x"] ["out"] ".txt"
          none none ⟨[(["out", "a.csv"], [⟨"x", 1, 1⟩])], [["out"]]⟩).2.2)) ∧
    ((Entry.dir "sub" [] : Entry).isDir = true ∧
     text_rank_subdirs (fun s => [⟨s, 1, 1⟩]) [Entry.dir "sub" [], Entry.file "n.txt" "y"]
        ["out"] ".txt" none none ⟨[], []⟩ =
      ([] ++ (text_rank_subdirs (fun s => [⟨s, 1, 1⟩]) [Entry.file "n.txt" "y"] ["out"] ".txt"
          none none ⟨[], [["out", "sub"]]⟩).1,
       (text_rank_subdirs (fun s => [⟨s, 1, 1⟩]) [Entry.file "n.txt" "y"] ["out"] ".txt"
          none none ⟨[], [["out", "sub"]]⟩).2.1,
       (text_rank_subdirs (fun s => [⟨s, 1, 1⟩]) [Entry.file "n.txt" "y"] ["out"] ".txt"
          none none ⟨[], [["out", "sub"]]⟩).2.2)) ∧
    ((Entry.file "n.txt" "y" : Entry).isDir = false ∧
     text_rank_subdirs (fun s => [⟨s, 1, 1⟩]) [Entry.file "n.txt" "y"] ["out"] ".txt"
        none none ⟨[], []⟩ =
      text_rank_subdirs (fun s => [⟨s, 1, 1⟩]) [] ["out"] ".txt" none none ⟨[], []⟩) :=
  ⟨⟨by decide,
    C8_recursion_structure.1 (fun s => [⟨s, 1, 1⟩]) "d" [Entry.file "a.txt" "x"] ["out"]
      ".txt" none none ⟨[], []⟩ _ _ (by decide)⟩,
   ⟨by decide,
    C8_recursion_structure.2.1 (fun s => [⟨s, 1, 1⟩]) (Entry.dir "sub" [])
      [Entry.file "n.txt" "y"] ["out"] ".txt" none none ⟨[], []⟩ _ _ (by decide) (by decide)⟩,
   ⟨by decide,
    C8_recursion_structure.2.2.1 (fun s => [⟨s, 1, 1⟩]) (Entry.file "n.txt" "y") [] ["out"]
      ".txt" none none ⟨[], []⟩ (by decide)⟩⟩

/-! ## Read-failure lemmas (claim C9) -/

/-- The fatal error produced by sequentially opening the entries of `l`:
the first entry that is not a regular file aborts with `IsADirectoryError`. -/
def firstReadErr (l : List Entry) : Option Err :=
  match l.find? (fun e => !e.isFile) with
  | some e => some (.isADirectory e.name)
  | none => none

theorem readBatch_err (batch : List Entry) :
    (readBatch batch).2 = firstReadErr batch := by
  induction batch with
  | nil => simp [readBatch, firstReadErr]
  | cons e rest ih =>
    cases e with
    | file n c => simpa [readBatch, firstReadErr, Entry.isFile, List.find?] using ih
    | dir n cs => simp [readBatch, firstReadErr, Entry.isFile, Entry.name, List.find?]

theorem readBatch_len_of_ok (batch : List Entry) (h : (readBatch batch).2 = none) :
    (readBatch batch).1.length = batch.length := by
  induction batch with
  | nil => simp [readBatch]
  | cons e rest ih =>
    cases e with
    | file n c =>
      rcases hr : readBatch rest with ⟨cs, err⟩
      rw [readBatch, hr] at h ⊢
      simp at h ⊢
      have := ih (by rw [hr]; exact h)
      rw [hr] at this
      simpa using this
    | dir n cs => simp [readBatch] at h

theorem firstReadErr_append (a b : List Entry) :
    firstReadErr (a ++ b) =
      match firstReadErr a with
      | some e => some e
      | none => firstReadErr b := by
  induction a with
  | nil => simp [firstReadErr]
  | cons e rest ih =>
    cases e with
    | file n c => simpa [firstReadErr, Entry.isFile, List.find?] using ih
    | dir n cs => simp [firstReadErr, Entry.isFile, List.find?]

theorem pipelineGo_err (extract : String → List Phrase) (lim : Option Int)
    (batches : List (List Entry)) :
    (pipelineGo extract lim batches).2.2 = firstReadErr batches.flatten := by
  induction batches with
  | nil => simp [pipelineGo, firstReadErr]
  | cons batch rest ih =>
    rcases hrb : readBatch batch with ⟨texts, err⟩
    have herr : err = firstReadErr batch := by
      have := readBatch_err batch
      rw [hrb] at this
      exact this
    rw [List.flatten_cons, firstReadErr_append]
    cases err with
    | some e => simp [pipelineGo, hrb, ← herr]
    | none =>
      rcases hgo : pipelineGo extract lim rest with ⟨ys2, rs2, e2⟩
      rw [hgo] at ih
      simp [pipelineGo, hrb, hgo, ← herr]
      exact ih

theorem pipelineGo_short_of_err (extract : String → List Phrase) (lim : Option Int)
    (batches : List (List Entry)) (e : Err)
    (h : (pipelineGo extract lim batches).2.2 = some e) :
    (pipelineGo extract lim batches).1.length < batches.flatten.length := by
  induction batches with
  | nil => simp [pipelineGo] at h
  | cons batch rest ih =>
    rcases hrb : readBatch batch with ⟨texts, err⟩
    cases err with
    | some e2 =>
      have hne : batch ≠ [] := by
        intro hb
        subst hb
        simp [readBatch] at hrb
      cases batch with
      | nil => exact absurd rfl hne
      | cons x xs =>
        simp only [pipelineGo, hrb, List.flatten_cons, List.length_append,
          List.length_cons, List.length_nil]
        omega
    | none =>
      rcases hgo : pipelineGo extract lim rest with ⟨ys2, rs2, e2⟩
      rw [pipelineGo, hrb, hgo] at h ⊢
      simp at h ⊢
      rw [hgo] at ih
      have hlt := ih h
      have hlen : texts.length = batch.length := by
        have := readBatch_len_of_ok batch (by rw [hrb])
        rw [hrb] at this
        exact this
      simp [get_phrases, hlen]
      simp at hlt
      omega

theorem zipLoop_err_eq (wto : Bool) (out : OutPath) (files : List Entry)
    (ys : List PhraseList) (perr : Option Err) (fs : FS) :
    (zipLoop wto out files ys perr fs).2.2 =
      if ys.length < files.length then perr else none := by
  induction files generalizing ys fs with
  | nil => simp [zipLoop]
  | cons f fr ih =>
    cases ys with
    | nil => simp [zipLoop]
    | cons p pr =>
      rcases hpp : processPair wto out fs f p with ⟨evs, fs1⟩
      simp [zipLoop, hpp, ih pr fs1, Nat.succ_lt_succ_iff]

/-! ## Claim C9 -/

/-- Claim C9, confirmed: directory-mode input selection filters children by
`pathlib` suffix only, with no regular-file check.  Every direct child
subdirectory whose name carries the input suffix as its extension is included
in the files-to-process list; and (for any valid positive effective batch
size, in particular the default) the run then aborts fatally with an
`IsADirectoryError` for a suffix-matching directory child when the pipeline
tries to open it as a file. -/
theorem C9_subdir_matching_suffix_fatal (extract : String → List Phrase) (nm : String)
    (cs : List Entry) (out : OutPath) (recursive : Bool) (sfx : String)
    (lim bs : Option Int) (fs : FS) (d : Entry)
    (hmem : d ∈ cs) (hdir : d.isDir = true) (hsfx : pySuffix d.name = sfx) :
    d ∈ inputFilesOf cs sfx ∧
    (0 < effectiveBatchSize (inputFilesOf cs sfx) bs →
      ∃ d2 ∈ inputFilesOf cs sfx, d2.isDir = true ∧
        (text_rank extract (.dir nm cs) out recursive sfx lim bs fs).2.2 =
          some (.isADirectory d2.name)) := by
  have hmemf : d ∈ inputFilesOf cs sfx := by
    apply List.mem_filter.mpr
    exact ⟨hmem, by simp [hsfx]⟩
  refine ⟨hmemf, ?_⟩
  intro hb
  -- the pipeline fails with the first directory entry among the input files
  have hfind : ∃ d2, (inputFilesOf cs sfx).find? (fun e => !e.isFile) = some d2 := by
    have : ((inputFilesOf cs sfx).find? (fun e => !e.isFile)).isSome := by
      rw [List.find?_isSome]
      exact ⟨d, hmemf, by cases d <;> simp_all [Entry.isFile, Entry.isDir]⟩
    exact Option.isSome_iff_exists.mp this
  obtain ⟨d2, hfind⟩ := hfind
  have hd2mem : d2 ∈ inputFilesOf cs sfx := List.mem_of_find?_eq_some hfind
  have hd2dir : d2.isDir = true := by
    have := List.find?_some hfind
    cases d2 <;> simp_all [Entry.isFile, Entry.isDir]
  have hfre : firstReadErr (inputFilesOf cs sfx) = some (.isADirectory d2.name) := by
    rw [firstReadErr, hfind]
  -- unfold the pipeline over the chunked input files
  have hpos : 0 < (effectiveBatchSize (inputFilesOf cs sfx) bs).toNat := by omega
  have hpipe : batched_file_process_iter extract (inputFilesOf cs sfx) bs lim =
      pipelineGo extract lim
        (chunks (effectiveBatchSize (inputFilesOf cs sfx) bs).toNat (inputFilesOf cs sfx)) := by
    unfold batched_file_process_iter
    rw [batch_files_int_pos _ _ hb]
  have hperr : (batched_file_process_iter extract (inputFilesOf cs sfx) bs lim).2.2 =
      some (.isADirectory d2.name) := by
    rw [hpipe, pipelineGo_err, chunks_flatten _ hpos, hfre]
  have hshort : (batched_file_process_iter extract (inputFilesOf cs sfx) bs lim).1.length <
      (inputFilesOf cs sfx).length := by
    rw [hpipe] at hperr ⊢
    have hs := pipelineGo_short_of_err extract lim _ _ hperr
    rwa [chunks_flatten _ hpos] at hs
  refine ⟨d2, hd2mem, hd2dir, ?_⟩
  -- the zip pairing surfaces the pending pipeline error
  rcases hp : batched_file_process_iter extract (inputFilesOf cs sfx) bs lim
    with ⟨ys, reads, perr⟩
  rw [hp] at hperr hshort
  have hzip : (zipLoop false out (inputFilesOf cs sfx) ys perr (mkdirFS fs out)).2.2 =
      some (.isADirectory d2.name) := by
    rw [zipLoop_err_eq]
    rw [if_pos hshort]
    exact hperr
  have hdisp : (dispatchOwn extract cs out sfx lim bs fs).2.2 =
      some (.isADirectory d2.name) := by
    simp only [dispatchOwn]
    rw [hp]
    exact hzip
  rcases hdo : dispatchOwn extract cs out sfx lim bs fs with ⟨evs, fs2, e⟩
  rw [hdo] at hdisp
  obtain rfl : e = some (Err.isADirectory d2.name) := hdisp
  simp [text_rank, hdo]

theorem C9_subdir_matching_suffix_fatal_witness :
    (Entry.dir "x.txt" [] ∈ [Entry.dir "x.txt" []] ∧
     (Entry.dir "x.txt" [] : Entry).isDir = true ∧
     pySuffix (Entry.dir "x.txt" [] : Entry).name = ".txt") ∧
    Entry.dir "x.txt" [] ∈ inputFilesOf [Entry.dir "x.txt" []] ".txt" ∧
    (0 < effectiveBatchSize (inputFilesOf [Entry.dir "x.txt" []] ".txt") none ∧
     ∃ d2 ∈ inputFilesOf [Entry.dir "x.txt" []] ".txt", d2.isDir = true ∧
       (text_rank (fun s => [⟨s, 1, 1⟩]) (.dir "root" [Entry.dir "x.txt" []]) ["out"] false
           ".txt" none none ⟨[], []⟩).2.2 =
         some (.isADirectory d2.name)) := by
  have h := C9_subdir_matching_suffix_fatal (fun s => [⟨s, 1, 1⟩]) "root"
    [Entry.dir "x.txt" []] ["out"] false ".txt" none none ⟨[], []⟩
    (Entry.dir "x.txt" []) (List.mem_singleton.mpr rfl) rfl rfl
  exact ⟨⟨List.mem_singleton.mpr rfl, rfl, rfl⟩, h.1, by decide, h.2 (by decide)⟩

/-! ## Write-trace lemmas (claim C7) -/

/-- The file writes contained in an event trace, in order. -/
def writesOf (evs : List Event) : List (OutPath × PhraseList) :=
  evs.filterMap fun e =>
    match e with
    | .write p v => some (p, v)
    | _ => none

/-- The value of the last write to `q` in a write list, if any. -/
def lastAssq (q : OutPath) (l : List (OutPath × PhraseList)) : Option PhraseList :=
  (l.reverse.find? fun pv => pv.1 == q).map Prod.snd

theorem writesOf_append (a b : List Event) :
    writesOf (a ++ b) = writesOf a ++ writesOf b := by
  simp [writesOf, List.filterMap_append]

theorem lastAssq_append (q : OutPath) (a b : List (OutPath × PhraseList)) :
    lastAssq q (a ++ b) =
      match lastAssq q b with
      | some v => some v
      | none => lastAssq q a := by
  unfold lastAssq
  rw [List.reverse_append, List.find?_append]
  cases h : List.find? (fun pv => pv.1 == q) b.reverse <;> simp [h, Option.or]

theorem lastAssq_match_append (q : OutPath) (w1 w2 : List (OutPath × PhraseList))
    (r : Option PhraseList) :
    (match lastAssq q (w1 ++ w2) with
     | some v => some v
     | none => r) =
      (match lastAssq q w2 with
       | some v => some v
       | none =>
         match lastAssq q w1 with
         | some v => some v
         | none => r) := by
  rw [lastAssq_append]
  cases lastAssq q w2 <;> cases lastAssq q w1 <;> simp

theorem lastAssq_single (q p : OutPath) (v : PhraseList) :
    lastAssq q [(p, v)] = if p = q then some v else none := by
  by_cases h : p = q
  · simp [lastAssq, List.find?, h]
  · have hbeq : (p == q) = false := beq_eq_false_iff_ne.mpr h
    simp [lastAssq, List.find?, hbeq, h]

theorem FS.lookup_setFile (fs : FS) (p q : OutPath) (v : PhraseList) :
    (fs.setFile p v).lookup q = if p = q then some v else fs.lookup q := by
  by_cases h : p = q
  · simp [FS.setFile, FS.lookup, List.find?, h]
  · have hbeq : (p == q) = false := beq_eq_false_iff_ne.mpr h
    simp [FS.setFile, FS.lookup, List.find?, hbeq, h]

theorem FS.lookup_mkdirFS (fs : FS) (p q : OutPath) :
    (mkdirFS fs p).lookup q = fs.lookup q := by
  unfold mkdirFS
  split <;> rfl

theorem processPair_writes (wto : Bool) (out : OutPath) (fs : FS) (f : Entry)
    (ph : PhraseList) :
    writesOf (processPair wto out fs f ph).1 =
      if ph.length = 0 then [] else [(currOutPath wto out f, ph)] := by
  by_cases h0 : ph.length = 0
  · simp [processPair, h0, writesOf]
  · cases hex : fs.fileExists (currOutPath wto out f) <;>
      simp [processPair, h0, hex, writesOf]

theorem processPair_state (wto : Bool) (out : OutPath) (fs : FS) (f : Entry)
    (ph : PhraseList) :
    (processPair wto out fs f ph).2 =
      if ph.length = 0 then fs else fs.setFile (currOutPath wto out f) ph := by
  by_cases h0 : ph.length = 0
  · simp [processPair, h0]
  · cases hex : fs.fileExists (currOutPath wto out f) <;> simp [processPair, h0, hex]

theorem zipLoop_W_E_inv (wto : Bool) (out : OutPath) :
    ∀ (files : List Entry) (ys : List PhraseList) (perr : Option Err) (fs fs' : FS),
      writesOf (zipLoop wto out files ys perr fs).1 =
        writesOf (zipLoop wto out files ys perr fs').1 ∧
      (zipLoop wto out files ys perr fs).2.2 = (zipLoop wto out files ys perr fs').2.2
  | [], ys, perr, fs, fs' => by simp [zipLoop]
  | f :: fr, [], perr, fs, fs' => by simp [zipLoop]
  | f :: fr, p :: pr, perr, fs, fs' => by
    rcases h1 : processPair wto out fs f p with ⟨evs1, fsA⟩
    rcases h2 : processPair wto out fs' f p with ⟨evs2, fsB⟩
    have hw : writesOf evs1 = writesOf evs2 := by
      have a1 := processPair_writes wto out fs f p
      have a2 := processPair_writes wto out fs' f p
      rw [h1] at a1
      rw [h2] at a2
      simp only at a1 a2
      rw [a1, a2]
    have ih := zipLoop_W_E_inv wto out fr pr perr fsA fsB
    simp [zipLoop, h1, h2, writesOf_append, hw, ih.1, ih.2]

theorem zipLoop_lookup (wto : Bool) (out : OutPath) :
    ∀ (files : List Entry) (ys : List PhraseList) (perr : Option Err) (fs : FS)
      (q : OutPath),
      (zipLoop wto out files ys perr fs).2.1.lookup q =
        match lastAssq q (writesOf (zipLoop wto out files ys perr fs).1) with
        | some v => some v
        | none => fs.lookup q
  | [], ys, perr, fs, q => by simp [zipLoop, writesOf, lastAssq]
  | f :: fr, [], perr, fs, q => by simp [zipLoop, writesOf, lastAssq]
  | f :: fr, p :: pr, perr, fs, q => by
    rcases h1 : processPair wto out fs f p with ⟨evs1, fsA⟩
    have hst := processPair_state wto out fs f p
    have hwr := processPair_writes wto out fs f p
    rw [h1] at hst hwr
    simp only at hst hwr
    have hA : fsA.lookup q =
        match lastAssq q (writesOf evs1) with
        | some v => some v
        | none => fs.lookup q := by
      by_cases h0 : p.length = 0
      · rw [if_pos h0] at hst hwr
        rw [hst, hwr]
        simp [lastAssq]
      · rw [if_neg h0] at hst hwr
        rw [hst, hwr, FS.lookup_setFile]
        by_cases hc : currOutPath wto out f = q <;>
          simp [lastAssq_single, hc]
    have ih := zipLoop_lookup wto out fr pr perr fsA q
    rcases hz : zipLoop wto out fr pr perr fsA with ⟨evs2, fs2, e2⟩
    rw [hz] at ih
    simp only at ih
    simp only [zipLoop, h1, hz, writesOf_append]
    rw [lastAssq_match_append, ih]
    cases lastAssq q (writesOf evs2) <;> simp [hA]

theorem dispatchOwn_W_E_inv (extract : String → List Phrase) (cs : List Entry)
    (out : OutPath) (sfx : String) (lim bs : Option Int) (fs fs' : FS) :
    writesOf (dispatchOwn extract cs out sfx lim bs fs).1 =
      writesOf (dispatchOwn extract cs out sfx lim bs fs').1 ∧
    (dispatchOwn extract cs out sfx lim bs fs).2.2 =
      (dispatchOwn extract cs out sfx lim bs fs').2.2 := by
  rcases hp : batched_file_process_iter extract (inputFilesOf cs sfx) bs lim
    with ⟨ys, reads, perr⟩
  simp only [dispatchOwn, hp]
  exact zipLoop_W_E_inv false out _ ys perr (mkdirFS fs out) (mkdirFS fs' out)

theorem dispatchOwn_lookup (extract : String → List Phrase) (cs : List Entry)
    (out : OutPath) (sfx : String) (lim bs : Option Int) (fs : FS) (q : OutPath) :
    (dispatchOwn extract cs out sfx lim bs fs).2.1.lookup q =
      match lastAssq q (writesOf (dispatchOwn extract cs out sfx lim bs fs).1) with
      | some v => some v
      | none => fs.lookup q := by
  rcases hp : batched_file_process_iter extract (inputFilesOf cs sfx) bs lim
    with ⟨ys, reads, perr⟩
  simp only [dispatchOwn, hp]
  rw [zipLoop_lookup, FS.lookup_mkdirFS]

mutual

theorem text_rank_W_E_inv (extract : String → List Phrase) (input : Entry)
    (out : OutPath) (recursive : Bool) (sfx : String) (lim bs : Option Int)
    (fs fs' : FS) :
    writesOf (text_rank extract input out recursive sfx lim bs fs).1 =
      writesOf (text_rank extract input out recursive sfx lim bs fs').1 ∧
    (text_rank extract input out recursive sfx lim bs fs).2.2 =
      (text_rank extract input out recursive sfx lim bs fs').2.2 := by
  cases input with
  | file n c =>
    rcases hp : batched_file_process_iter extract [Entry.file n c] bs lim
      with ⟨ys, reads, perr⟩
    simp only [text_rank, hp]
    exact zipLoop_W_E_inv true out _ ys perr fs fs'
  | dir nm children =>
    rcases h1 : dispatchOwn extract children out sfx lim bs fs with ⟨evs1, fsA, e1⟩
    rcases h2 : dispatchOwn extract children out sfx lim bs fs' with ⟨evs2, fsB, e2⟩
    have hinv := dispatchOwn_W_E_inv extract children out sfx lim bs fs fs'
    rw [h1, h2] at hinv
    simp only at hinv
    obtain ⟨hw, he⟩ := hinv
    cases e1 with
    | some er =>
      cases e2 with
      | some er2 =>
        simp [text_rank, h1, h2, hw]
        simpa using he
      | none => simp at he
    | none =>
      cases e2 with
      | some er2 => simp at he
      | none =>
        have hsub := text_rank_subdirs_W_E_inv extract children out sfx lim bs fsA fsB
        cases recursive <;>
          simp [text_rank, h1, h2, writesOf_append, hw, hsub.1, hsub.2]

theorem text_rank_subdirs_W_E_inv (extract : String → List Phrase)
    (entries : List Entry) (out : OutPath) (sfx : String) (lim bs : Option Int)
    (fs fs' : FS) :
    writesOf (text_rank_subdirs extract entries out sfx lim bs fs).1 =
      writesOf (text_rank_subdirs extract entries out sfx lim bs fs').1 ∧
    (text_rank_subdirs extract entries out sfx lim bs fs).2.2 =
      (text_rank_subdirs extract entries out sfx lim bs fs').2.2 := by
  cases entries with
  | nil => simp [text_rank_subdirs]
  | cons c rest =>
    cases hdc : c.isDir with
    | false =>
      have ih := text_rank_subdirs_W_E_inv extract rest out sfx lim bs fs fs'
      simpa [text_rank_subdirs, hdc] using ih
    | true =>
      rcases hr1 : text_rank extract c (out ++ [c.name]) true sfx lim bs fs
        with ⟨evsA, fsA, eA⟩
      rcases hr2 : text_rank extract c (out ++ [c.name]) true sfx lim bs fs'
        with ⟨evsB, fsB, eB⟩
      have hinv := text_rank_W_E_inv extract c (out ++ [c.name]) true sfx lim bs fs fs'
      rw [hr1, hr2] at hinv
      simp only at hinv
      obtain ⟨hw, he⟩ := hinv
      cases eA with
      | some er =>
        cases eB with
        | some er2 =>
          simp [text_rank_subdirs, hdc, hr1, hr2, hw]
          simpa using he
        | none => simp at he
      | none =>
        cases eB with
        | some er2 => simp at he
        | none =>
          have ih := text_rank_subdirs_W_E_inv extract rest out sfx lim bs fsA fsB
          simp [text_rank_subdirs, hdc, hr1, hr2, writesOf_append, hw, ih.1, ih.2]

end

mutual

theorem text_rank_lookup (extract : String → List Phrase) (input : Entry)
    (out : OutPath) (recursive : Bool) (sfx : String) (lim bs : Option Int)
    (fs : FS) (q : OutPath) :
    (text_rank extract input out recursive sfx lim bs fs).2.1.lookup q =
      match lastAssq q (writesOf (text_rank extract input out recursive sfx lim bs fs).1) with
      | some v => some v
      | none => fs.lookup q := by
  cases input with
  | file n c =>
    rcases hp : batched_file_process_iter extract [Entry.file n c] bs lim
      with ⟨ys, reads, perr⟩
    simp only [text_rank, hp]
    exact zipLoop_lookup true out _ ys perr fs q
  | dir nm children =>
    rcases h1 : dispatchOwn extract children out sfx lim bs fs with ⟨evs1, fsA, e1⟩
    have hA := dispatchOwn_lookup extract children out sfx lim bs fs q
    rw [h1] at hA
    simp only at hA
    cases e1 with
    | some er =>
      simp only [text_rank, h1]
      exact hA
    | none =>
      cases recursive with
      | false =>
        simp only [text_rank, h1, Bool.false_eq_true, if_neg (by simp : ¬ (false = true))]
        exact hA
      | true =>
        have hB := text_rank_subdirs_lookup extract children out sfx lim bs fsA q
        rcases hs : text_rank_subdirs extract children out sfx lim bs fsA
          with ⟨evs2, fs2, e2⟩
        rw [hs] at hB
        simp only at hB
        have hred : text_rank extract (.dir nm children) out true sfx lim bs fs =
            (evs1 ++ evs2, fs2, e2) := by
          simp [text_rank, h1, hs]
        rw [hred]
        rw [writesOf_append, lastAssq_match_append, hB]
        cases lastAssq q (writesOf evs2) <;> simp [hA]

theorem text_rank_subdirs_lookup (extract : String → List Phrase)
    (entries : List Entry) (out : OutPath) (sfx : String) (lim bs : Option Int)
    (fs : FS) (q : OutPath) :
    (text_rank_subdirs extract entries out sfx lim bs fs).2.1.lookup q =
      match lastAssq q (writesOf (text_rank_subdirs extract entries out sfx lim bs fs).1) with
      | some v => some v
      | none => fs.lookup q := by
  cases entries with
  | nil => simp [text_rank_subdirs, writesOf, lastAssq]
  | cons c rest =>
    cases hdc : c.isDir with
    | false =>
      have ih := text_rank_subdirs_lookup extract rest out sfx lim bs fs q
      simpa [text_rank_subdirs, hdc] using ih
    | true =>
      rcases hr1 : text_rank extract c (out ++ [c.name]) true sfx lim bs fs
        with ⟨evsA, fsA, eA⟩
      have hA := text_rank_lookup extract c (out ++ [c.name]) true sfx lim bs fs q
      rw [hr1] at hA
      simp only at hA
      cases eA with
      | some er =>
        simp only [text_rank_subdirs, hdc, hr1]
        exact hA
      | none =>
        have ihB := text_rank_subdirs_lookup extract rest out sfx lim bs fsA q
        rcases hs : text_rank_subdirs extract rest out sfx lim bs fsA
          with ⟨evs2, fs2, e2⟩
        rw [hs] at ihB
        simp only at ihB
        have hred : text_rank_subdirs extract (c :: rest) out sfx lim bs fs =
            (evsA ++ evs2, fs2, e2) := by
          simp [text_rank_subdirs, hdc, hr1, hs]
        rw [hred]
        rw [writesOf_append, lastAssq_match_append, ihB]
        cases lastAssq q (writesOf evs2) <;> simp [hA]

end

theorem text_rank_idempotent_lookup (extract : String → List Phrase) (input : Entry)
    (out : OutPath) (recursive : Bool) (sfx : String) (lim bs : Option Int)
    (fs : FS) (q : OutPath) :
    (text_rank extract input out recursive sfx lim bs
        (text_rank extract input out recursive sfx lim bs fs).2.1).2.1.lookup q =
      (text_rank extract input out recursive sfx lim bs fs).2.1.lookup q := by
  have hw := (text_rank_W_E_inv extract input out recursive sfx lim bs
    ((text_rank extract input out recursive sfx lim bs fs).2.1) fs).1
  have h1 := text_rank_lookup extract input out recursive sfx lim bs fs q
  have h2 := text_rank_lookup extract input out recursive sfx lim bs
    ((text_rank extract input out recursive sfx lim bs fs).2.1) q
  rw [h2, hw]
  cases hl : lastAssq q (writesOf (text_rank extract input out recursive sfx lim bs fs).1) with
  | some v =>
    rw [h1, hl]
  | none => rfl

/-! ## Claim C7 -/

/-- Claim C7, confirmed: (a) for every non-empty phrase list whose destination
already exists on the output store, the writer surfaces an overwrite warning
*and the write nevertheless proceeds*, replacing the existing content — an
existing destination is never a hard skip; (b) running the dispatcher a second
time over the same input tree and output path, starting from the output store
the first run produced, leaves every output file's content exactly as after
the first run (the extractor is a function, hence deterministic). -/
theorem C7_overwrite_warned_but_written :
    (∀ (wto : Bool) (out : OutPath) (fs : FS) (f : Entry) (ph : PhraseList),
      ph.length ≠ 0 →
      fs.fileExists (currOutPath wto out f) = true →
      processPair wto out fs f ph =
        ([.warnOverwrite ("File " ++ renderPath out ++ " already exists, skipping"),
          .write (currOutPath wto out f) ph],
         fs.setFile (currOutPath wto out f) ph)) ∧
    (∀ (extract : String → List Phrase) (input : Entry) (out : OutPath)
        (recursive : Bool) (sfx : String) (lim bs : Option Int) (fs : FS) (q : OutPath),
      (text_rank extract input out recursive sfx lim bs
          (text_rank extract input out recursive sfx lim bs fs).2.1).2.1.lookup q =
        (text_rank extract input out recursive sfx lim bs fs).2.1.lookup q) := by
  constructor
  · intro wto out fs f ph h0 hex
    simp [processPair, h0, hex]
  · exact text_rank_idempotent_lookup

theorem C7_overwrite_warned_but_written_witness :
    (([⟨"x", 1, 1⟩] : PhraseList).length ≠ 0 ∧
     (FS.mk [(["out", "a.csv"], [⟨"old", 1, 1⟩])] []).fileExists
        (currOutPath false ["out"] (Entry.file "a.txt" "x")) = true ∧
     processPair false ["out"] (FS.mk [(["out", "a.csv"], [⟨"old", 1, 1⟩])] [])
        (Entry.file "a.txt" "x") [⟨"x", 1, 1⟩] =
       ([.warnOverwrite ("File " ++ renderPath ["out"] ++ " already exists, skipping"),
         .write (currOutPath false ["out"] (Entry.file "a.txt" "x")) [⟨"x", 1, 1⟩]],
        (FS.mk [(["out", "a.csv"], [⟨"old", 1, 1⟩])] []).setFile
          (currOutPath false ["out"] (Entry.file "a.txt" "x")) [⟨"x", 1, 1⟩])) ∧
    (text_rank (fun s => [⟨s, 1, 1⟩]) (.dir "d" [Entry.file "a.txt" "x"]) ["out"] false
        ".txt" none none
        (text_rank (fun s => [⟨s, 1, 1⟩]) (.dir "d" [Entry.file "a.txt" "x"]) ["out"] false
          ".txt" none none ⟨[], []⟩).2.1).2.1.lookup ["out", "a.csv"] =
      (text_rank (fun s => [⟨s, 1, 1⟩]) (.dir "d" [Entry.file "a.txt" "x"]) ["out"] false
        ".txt" none none ⟨[], []⟩).2.1.lookup ["out", "a.csv"] :=
  ⟨⟨by decide, by decide,
    C7_overwrite_warned_but_written.1 false ["out"]
      (FS.mk [(["out", "a.csv"], [⟨"old", 1, 1⟩])] []) (Entry.file "a.txt" "x")
      [⟨"x", 1, 1⟩] (by decide) (by decide)⟩,
   C7_overwrite_warned_but_written.2 (fun s => [⟨s, 1, 1⟩])
     (.dir "d" [Entry.file "a.txt" "x"]) ["out"] false ".txt" none none ⟨[], []⟩
     ["out", "a.csv"]⟩

/-! ### Python-semantics spot checks

Concrete evaluations pinning the embedding of the `pathlib` and `range`
helpers to the behaviour of the Python originals. -/

theorem pySuffix_plain : pySuffix "a.txt" = ".txt" := by decide

theorem pySuffix_hidden : pySuffix ".txt" = "" := by decide

theorem pySuffix_trailing_dot : pySuffix "a." = "" := by decide

theorem pySuffix_multi_dot : pySuffix "a.b.txt" = ".txt" := by decide

theorem pyWithSuffix_multi_dot : pyWithSuffix "a.b.txt" ".csv" = "a.b.csv" := by decide

theorem pyWithSuffix_no_ext : pyWithSuffix "noext" ".csv" = "noext.csv" := by decide

theorem batch_files_example : batch_files [1, 2, 3, 4, 5] 2 = some [[1, 2], [3, 4], [5]] := by
  decide

theorem batch_files_nil : batch_files ([] : List Nat) 2 = some [] := by decide

theorem batch_files_zero : batch_files [1, 2, 3] 0 = none := by decide

theorem batch_files_neg : batch_files [1, 2, 3] (-1) = some [] := by decide

end HateTracker
